import Mathlib

/-!
Verification of the feedie adaptive batched inference pipeline.

Shallow embedding of the core of the repository:
* `feeder_core/src/lib.rs` — decision builder, label parsing, image
  normalization, pipelined batched classification;
* `app_gui/src/app/cache.rs` — folder scan result cache;
* `app_gui/src/app/folder.rs` — auto batch-size tuner.

Rust `f32` probabilities, thresholds and timings are embedded as `ℚ`;
machine integers (`u64`, `usize`) as `ℕ`.  External effects (image
decoding, the model forward pass, file signatures, wall-clock timing)
are parameters of the embedded functions.  The file lists all
definitions first and all theorems afterwards.
-/

namespace Feedie

/-- `Decision` from feeder_core: either `Unknown` or a species label. -/
inductive Decision where
  | unknown : Decision
  | label : String → Decision
deriving DecidableEq, Repr

/-- `Classification` from feeder_core: decision plus confidence. -/
structure Classification where
  decision : Decision
  confidence : ℚ
deriving DecidableEq, Repr

/-- `ImageInfo` from feeder_core (the spec's `ImageRow`): the file (by its
path), the presence flag and the optional classification. -/
structure ImageRow where
  file : String
  present : Bool
  classification : Option Classification
deriving DecidableEq, Repr

/-- `ClassificationResult` from feeder_core's classifier module. -/
structure ClassificationResult where
  present : Bool
  classification : Option Classification
deriving DecidableEq, Repr

/-! ## Decision builder (`EfficientVitClassifier::build_result_from_probs`) -/

/-- Rust's `str::to_ascii_lowercase`: character-wise ASCII lowercasing
(`Char.toLower` only maps `A`–`Z`), written over the character list so the
kernel can evaluate it. -/
def asciiLower (s : String) : String := ⟨s.data.map Char.toLower⟩

/-- Embedding of Rust's `Iterator::max_by` over an enumerated probability
list, with `partial_cmp` on the second component: the accumulator is kept
only when it is strictly greater, so the last of equally-maximal elements
wins, exactly as `Iterator::max_by` specifies. -/
def maxByProb : List (Nat × ℚ) → Option (Nat × ℚ)
  | [] => none
  | x :: xs => some (xs.foldl (fun acc y => if y.2 < acc.2 then acc else y) x)

/-- `EfficientVitClassifier::build_result_from_probs`.  `labels` and
`backgroundLabels` are the classifier fields (the background labels were
lowercased at construction), `thr` is `presence_threshold`. -/
def buildResultFromProbs (labels backgroundLabels : List String) (thr : ℚ)
    (probs : List ℚ) : Option ClassificationResult :=
  match maxByProb probs.enum with
  | none => none
  | some (bestIdx, bestProb) =>
    let label := (labels.get? bestIdx).getD ("class_" ++ toString bestIdx)
    let labelLower := asciiLower label
    let isBackground := backgroundLabels.any (fun bg => bg == labelLower)
    let present := decide (thr ≤ bestProb) && !isBackground
    let decision := if isBackground then Decision.unknown else Decision.label label
    some ⟨present, some ⟨decision, bestProb⟩⟩

/-! ## Label parsing (`EfficientVitClassifier::new`, lines 468–487)

String primitives are rendered over the character list so the kernel can
evaluate them. -/

/-- Rust `str::trim`: drop whitespace from both ends. -/
def strTrim (s : String) : String :=
  ⟨((s.data.dropWhile Char.isWhitespace).reverse.dropWhile Char.isWhitespace).reverse⟩

/-- Rust `str::trim_end_matches` with a single-character pattern (and, for the
claim's variant, a character set): drop matching characters from the end. -/
def strTrimEndWhile (s : String) (p : Char → Bool) : String :=
  ⟨(s.data.reverse.dropWhile p).reverse⟩

/-- The prefix part of Rust `str::split_once(',')`: `some` of the text before
the first comma when the string has one, else `none`. -/
def strBeforeComma (s : String) : Option String :=
  if s.data.contains ',' then some ⟨s.data.takeWhile (fun c => c ≠ ',')⟩ else none

/-- The per-line mapping in `EfficientVitClassifier::new`: trim the line; take
the text before the first comma (trimmed) when there is one; strip trailing
commas; trim again. -/
def parseLabelLine (line : String) : String :=
  let trimmed := strTrim line
  let primary :=
    match strBeforeComma trimmed with
    | some first => strTrim first
    | none => trimmed
  strTrim (strTrimEndWhile primary (fun c => c = ','))

/-- The label lines after mapping and dropping empty results, exactly as the
`map`/`filter` chain in `EfficientVitClassifier::new`. -/
def parseLabels (lines : List String) : List String :=
  (lines.map parseLabelLine).filter (fun l => l ≠ "")

/-- Tail worker for `Vec::dedup`: drop elements equal to the previous kept
element. -/
def dedupConsecAux (prev : String) : List String → List String
  | [] => []
  | b :: rest => if b = prev then dedupConsecAux prev rest else b :: dedupConsecAux b rest

/-- Rust `Vec::dedup`: remove consecutive repeated elements. -/
def dedupConsec : List String → List String
  | [] => []
  | a :: rest => a :: dedupConsecAux a rest

/-- The label-list construction in `EfficientVitClassifier::new`: parse all
lines, fail when no label remains, then `dedup()`. -/
def newClassifierLabels (lines : List String) : Option (List String) :=
  let labels := parseLabels lines
  if labels = [] then none else some (dedupConsec labels)

/-- Modelled from the claim's words (not the source): per-line rule that also
trims trailing `.` characters. -/
def claimLabelLine (line : String) : String :=
  let trimmed := strTrim line
  let primary :=
    match strBeforeComma trimmed with
    | some first => strTrim first
    | none => trimmed
  strTrim (strTrimEndWhile primary (fun c => c = ',' || c = '.'))

/-- Keep-first global deduplication, as the claim's words describe it. -/
def dedupKeepFirstAux (seen : List String) : List String → List String
  | [] => []
  | a :: rest =>
    if seen.contains a then dedupKeepFirstAux seen rest
    else a :: dedupKeepFirstAux (a :: seen) rest

/-- Modelled from the claim's words (not the source): label parsing with
trailing-`.` trimming and global keep-first deduplication. -/
def claimParseLabels (lines : List String) : Option (List String) :=
  let labels := (lines.map claimLabelLine).filter (fun l => l ≠ "")
  if labels = [] then none else some (dedupKeepFirstAux [] labels)

/-! ## Image preprocessor (`load_image_tensor_data`, `normalize_channel`)

The decode/resize step is external; `resized` is the interleaved RGB byte
list it produces (`3*N*N` bytes, `R G B` per pixel). -/

/-- `normalize_channel`: `(raw/255 - mean) / std`. -/
def normalizeChannel (value : Nat) (mean std : ℚ) : ℚ :=
  ((value : ℚ) / 255 - mean) / std

/-- The fill loop of `load_image_tensor_data`: a `3*hw` zero buffer where
pixel `idx` writes its three channel values at `idx`, `hw + idx` and
`2*hw + idx` from interleaved bytes `3*idx`, `3*idx + 1`, `3*idx + 2`. -/
def loadImageTensorData (resized : List Nat) (size : Nat)
    (mean std : Fin 3 → ℚ) : List ℚ :=
  let hw := size * size
  (List.range hw).foldl
    (fun data idx =>
      let base := idx * 3
      ((data.set idx
          (normalizeChannel (resized.getD base 0) (mean 0) (std 0))).set
        (hw + idx)
          (normalizeChannel (resized.getD (base + 1) 0) (mean 1) (std 1))).set
        (2 * hw + idx)
          (normalizeChannel (resized.getD (base + 2) 0) (mean 2) (std 2)))
    (List.replicate (hw * 3) 0)

/-! ## Pipelined batched classification
(`EfficientVitClassifier::classify_with_progress_and_batch_size`,
`prepare_batch`)

The bounded producer/consumer channel preserves batch order, so the pipeline
is embedded as the order-preserving sequential composition of the batch
bodies.  External effects are the fields of `PipelineEnv`. -/

/-- External effects of one scan.  `prep` is `load_image_tensor_data` composed
with `tensor_from_data` for one path (`some` data, or `none` for a per-image
decode/tensor error); `probsOf` is one row of `softmax(model.forward ·)`, the
per-image mathematical semantics of the row-independent batched forward
pass. -/
structure PipelineEnv where
  prep : String → Option (List ℚ)
  probsOf : List ℚ → List ℚ
  labels : List String
  backgroundLabels : List String
  presenceThreshold : ℚ

/-- The failure write-back: `info.present = false; info.classification = None`. -/
def markAbsent (r : ImageRow) : ImageRow := ⟨r.file, false, none⟩

/-- `chunk.get_mut(idx)` followed by a write: update index `i` when it is in
bounds, otherwise leave the list unchanged. -/
def setWith {α : Type} (l : List α) (i : Nat) (f : α → α) : List α :=
  match l.get? i with
  | some r => l.set i (f r)
  | none => l

/-- Insertion step of the `sort_by_key(idx)` in `prepare_batch`. -/
def insertByFst {α : Type} (x : Nat × α) : List (Nat × α) → List (Nat × α)
  | [] => [x]
  | y :: ys => if x.1 ≤ y.1 then x :: y :: ys else y :: insertByFst x ys

/-- `sort_by_key` on the first (index) component. -/
def sortByFst {α : Type} : List (Nat × α) → List (Nat × α)
  | [] => []
  | x :: xs => insertByFst x (sortByFst xs)

/-- `EfficientVitClassifier::prepare_batch`: preprocess every enumerated file
of the batch in parallel (`perm` models the unspecified completion order of
the parallel iterator) and re-sort the per-image results by original index. -/
def prepareBatchItems (env : PipelineEnv)
    (perm : List (Nat × String) → List (Nat × String)) (files : List String) :
    List (Nat × String × Option (List ℚ)) :=
  sortByFst ((perm files.enum).map (fun p => (p.1, p.2, env.prep p.2)))

/-- The tensor-collection loop of the consumer: per-image failures mark their
row absent in place; successes are queued as `(index, tensor)` in order. -/
def collectTensors (chunk : List ImageRow)
    (items : List (Nat × String × Option (List ℚ))) :
    List ImageRow × List (Nat × List ℚ) :=
  items.foldl
    (fun acc it =>
      match it.2.2 with
      | some d => (acc.1, acc.2 ++ [(it.1, d)])
      | none => (setWith acc.1 it.1 markAbsent, acc.2))
    (chunk, [])

/-- The success write-back: apply `build_result_from_probs` to a row, marking
it absent when result construction fails. -/
def applyProbs (env : PipelineEnv) (p : List ℚ) (r : ImageRow) : ImageRow :=
  match buildResultFromProbs env.labels env.backgroundLabels
      env.presenceThreshold p with
  | some res => ⟨r.file, res.present, res.classification⟩
  | none => markAbsent r

/-- The consumer body for one prepared batch: collect tensors; with no tensors
skip inference, else run the single batched forward pass (per image:
`probsOf`) and write each probability row back at its original index.
Returns the updated chunk and the number of forward passes (0 or 1). -/
def processChunk (env : PipelineEnv) (chunk : List ImageRow)
    (items : List (Nat × String × Option (List ℚ))) : List ImageRow × Nat :=
  let ct := collectTensors chunk items
  if ct.2.isEmpty then (ct.1, 0)
  else
    let probsRows := ct.2.map (fun t => env.probsOf t.2)
    let rows2 := (probsRows.zip (ct.2.map (fun t => t.1))).foldl
      (fun acc pr => setWith acc pr.2 (applyProbs env pr.1)) ct.1
    (rows2, 1)

/-- Rust `slice::chunks`: split into consecutive chunks of `n` (the last may
be shorter).  `n = 0` is treated as 1 (the callers clamp with `max(1)`). -/
def chunksList {α : Type} (n : Nat) : List α → List (List α)
  | [] => []
  | x :: xs => (x :: xs.take (n - 1)) :: chunksList n (xs.drop (n - 1))
  termination_by l => l.length
  decreasing_by simp; omega

/-- The consumer loop over prepared batches, in batch order: returns the
updated rows (concatenated back at their slice positions), the `done` values
reported to the progress callback, and the per-batch forward-pass counts. -/
def classifyGo (env : PipelineEnv)
    (perm : List (Nat × String) → List (Nat × String)) :
    List (List ImageRow) → Nat → Nat → List ImageRow × List Nat × List Nat
  | [], _, _ => ([], [], [])
  | c :: cs, total, processed =>
    if c.length = 0 then classifyGo env perm cs total processed
    else
      let pr := processChunk env c
        (prepareBatchItems env perm (c.map (fun r => r.file)))
      let processed' := processed + c.length
      let rest := classifyGo env perm cs total processed'
      (pr.1 ++ rest.1, min processed' total :: rest.2.1, pr.2 :: rest.2.2)

/-- `EfficientVitClassifier::classify_with_progress_and_batch_size`: an empty
row set returns at once with no progress events; otherwise the row set is
split into `batch_size.max(1)`-chunks and processed in order. -/
def classify (env : PipelineEnv)
    (perm : List (Nat × String) → List (Nat × String))
    (rows : List ImageRow) (batchSize : Nat) :
    List ImageRow × List Nat × List Nat :=
  if rows.length = 0 then (rows, [], [])
  else classifyGo env perm (chunksList (max batchSize 1) rows) rows.length 0

/-- The `batch_size` field stored by `EfficientVitClassifier::new`:
`cfg.batch_size.max(1)`. -/
def newClassifierBatchSize (cfgBatchSize : Nat) : Nat := max cfgBatchSize 1

/-- The per-row meaning of one scan: decode failure marks the row absent,
success classifies its probability row. -/
def perRow (env : PipelineEnv) (r : ImageRow) : ImageRow :=
  match env.prep r.file with
  | none => markAbsent r
  | some d => applyProbs env (env.probsOf d) r

/-! ## Scan result cache (`app_gui/src/app/cache.rs`)

Files are identified by their folder-relative path; the signature reads of
`fs::metadata` are the oracle `sig`.  The `HashMap` of current signatures is
embedded as an association list with distinct keys (a folder listing has
distinct relative paths). -/

/-- `CachedFile`. -/
structure CachedFile where
  rel_path : String
  size : Nat
  modified : Nat
  present : Bool
  classification : Option Classification
deriving DecidableEq, Repr

/-- `CachedScan`. -/
structure CachedScan where
  generated_at : Nat
  model_version : String
  files : List CachedFile
  total_files : Nat
deriving DecidableEq, Repr

/-- Lookup of a relative path in the current signature map. -/
def findSig (current : List (String × Nat × Nat)) (rel : String) :
    Option (Nat × Nat) :=
  (current.find? (fun e => e.1 == rel)).map (fun e => e.2)

/-- The validation loop of `try_load_cached_scan`: every cached row's
`rel_path` must resolve to a current file with the recorded `(size,
modified)`; on full success the rows are rebuilt verbatim from the cache. -/
def restoreRows (current : List (String × Nat × Nat)) :
    List CachedFile → Option (List ImageRow)
  | [] => some []
  | e :: rest =>
    match findSig current e.rel_path with
    | none => none
    | some sm =>
      if sm.1 = e.size ∧ sm.2 = e.modified then
        (restoreRows current rest).map
          (fun rs => ⟨e.rel_path, e.present, e.classification⟩ :: rs)
      else none

/-- `UiApp::try_load_cached_scan`: trust the cache only when the current file
count equals both the cached list length and `total_files` and every cached
row validates; `some rows` is the `Hit` outcome, `none` any miss. -/
def tryLoadCachedScan (current : List (String × Nat × Nat))
    (cached : CachedScan) : Option (List ImageRow) :=
  if current.length = cached.files.length ∧
      current.length = cached.total_files then
    restoreRows current cached.files
  else none

/-- `UiApp::save_cache_for_current_folder`: record each row whose signature is
readable (`sig`), with `total_files` the number of recorded entries. -/
def saveCacheForCurrentFolder (modelVersion : String) (now : Nat)
    (rows : List ImageRow) (sig : String → Option (Nat × Nat)) : CachedScan :=
  let files := rows.filterMap (fun r => (sig r.file).map
    (fun sm => ⟨r.file, sm.1, sm.2, r.present, r.classification⟩))
  ⟨now, modelVersion, files, files.length⟩

/-- Folder (re)opening as composed by `set_selected_folder`/`start_scan`: the
cache is consulted first; a hit restores the cached rows with zero forward
passes, a miss classifies the freshly scanned rows, counting forward
passes. -/
def openFolder (env : PipelineEnv)
    (perm : List (Nat × String) → List (Nat × String)) (batchSize : Nat)
    (current : List (String × Nat × Nat)) (cached : Option CachedScan)
    (scannedRows : List ImageRow) : List ImageRow × Nat :=
  match cached.bind (tryLoadCachedScan current) with
  | some rs => (rs, 0)
  | none =>
    let out := classify env perm scannedRows batchSize
    (out.1, out.2.2.sum)

/-! ## Auto batch-size tuner (`classify_with_auto_batch`, folder.rs)

Wall-clock measurement is external: `tpi c` is the oracle for the measured
seconds-per-image (`elapsed / local_done`) of the calibration run at
candidate size `c`. -/

/-- `AUTO_BATCH_MIN_TOTAL`. -/
def AUTO_BATCH_MIN_TOTAL : Nat := 1000

/-- `AUTO_BATCH_BASELINE`. -/
def AUTO_BATCH_BASELINE : Nat := 8

/-- `AUTO_BATCH_CANDIDATES`. -/
def AUTO_BATCH_CANDIDATES : List Nat := [8, 12]

/-- `AUTO_BATCH_TUNE_BATCHES`. -/
def AUTO_BATCH_TUNE_BATCHES : Nat := 4

/-- `AUTO_BATCH_MIN_IMPROVEMENT` (0.15). -/
def AUTO_BATCH_MIN_IMPROVEMENT : ℚ := 15 / 100

/-- The calibration loop of `classify_with_auto_batch`: for each candidate in
order, stop (`break`) when `offset + tune_len` would overrun the row set,
else run `tune_len = candidate * AUTO_BATCH_TUNE_BATCHES` rows and record the
measured per-image time when any row was reported (`local_done` equals the
slice length: the classifier reports after every batch, and every batch of a
non-empty slice is non-empty). -/
def autoBatchTimings (total : Nat) (tpi : Nat → ℚ) :
    List Nat → Nat → List (Nat × ℚ)
  | [], _ => []
  | cand :: rest, offset =>
    let tuneLen := cand * AUTO_BATCH_TUNE_BATCHES
    if offset + tuneLen > total then []
    else
      let localDone := tuneLen
      if 0 < localDone then
        (cand, tpi cand) :: autoBatchTimings total tpi rest (offset + localDone)
      else autoBatchTimings total tpi rest (offset + localDone)

/-- The selection block of `classify_with_auto_batch`: with a measured
baseline, a non-baseline candidate is chosen only when it beats the baseline
by more than the margin and the best time so far; without a measured
baseline, the first measured candidate, or the baseline when nothing was
measured. -/
def chooseBatchSize (timings : List (Nat × ℚ)) : Nat :=
  match timings.find? (fun t => t.1 == AUTO_BATCH_BASELINE) with
  | some bt =>
    (timings.foldl
      (fun acc t =>
        if t.1 == AUTO_BATCH_BASELINE then acc
        else if t.2 < bt.2 * (1 - AUTO_BATCH_MIN_IMPROVEMENT) ∧ t.2 < acc.1 then
          (t.2, t.1)
        else acc)
      (bt.2, AUTO_BATCH_BASELINE)).2
  | none =>
    match timings.head? with
    | some t => t.1
    | none => AUTO_BATCH_BASELINE

/-- The batch size `classify_with_auto_batch` uses for the remainder of the
scan: below the minimum total the baseline without any tuning, else the
selection rule over the calibration measurements. -/
def classifyAutoBatchChosen (total : Nat) (tpi : Nat → ℚ) : Nat :=
  if total < AUTO_BATCH_MIN_TOTAL then AUTO_BATCH_BASELINE
  else chooseBatchSize (autoBatchTimings total tpi AUTO_BATCH_CANDIDATES 0)

/-! # Theorems -/

/-! ## Claim C1 — decision builder -/

example : buildResultFromProbs ["a", "b"] ["b"] (Rat.divInt 1 2)
    [Rat.divInt 1 4, Rat.divInt 3 4] =
    some ⟨false, some ⟨Decision.unknown, Rat.divInt 3 4⟩⟩ := by decide

example : buildResultFromProbs ["a", "b"] [] (Rat.divInt 1 2)
    [Rat.divInt 3 4, Rat.divInt 1 4] =
    some ⟨true, some ⟨Decision.label "a", Rat.divInt 3 4⟩⟩ := by decide

example : buildResultFromProbs ["a", "b"] [] (Rat.divInt 1 2)
    [Rat.divInt 1 2, Rat.divInt 1 4] =
    some ⟨true, some ⟨Decision.label "a", Rat.divInt 1 2⟩⟩ := by decide

/-- The fold inside `maxByProb` returns an element of the list whose second
component bounds every second component of the list. -/
theorem maxByProb_fold_spec (xs : List (Nat × ℚ)) (x : Nat × ℚ) :
    (xs.foldl (fun acc y => if y.2 < acc.2 then acc else y) x) ∈ x :: xs ∧
    x.2 ≤ (xs.foldl (fun acc y => if y.2 < acc.2 then acc else y) x).2 ∧
    ∀ y ∈ xs, y.2 ≤ (xs.foldl (fun acc y => if y.2 < acc.2 then acc else y) x).2 := by
  induction xs generalizing x with
  | nil => simp
  | cons y ys ih =>
    have hx : x.2 ≤ (if y.2 < x.2 then x else y).2 := by
      by_cases h : y.2 < x.2 <;> simp [h]
      exact le_of_not_lt h
    have hy : y.2 ≤ (if y.2 < x.2 then x else y).2 := by
      by_cases h : y.2 < x.2 <;> simp [h]
      exact le_of_lt h
    obtain ⟨hmem, hacc, hall⟩ := ih (if y.2 < x.2 then x else y)
    simp only [List.foldl_cons]
    refine ⟨?_, le_trans hx hacc, ?_⟩
    · rcases List.mem_cons.mp hmem with h | h
      · rw [h]
        by_cases hc : y.2 < x.2 <;> simp [hc]
      · exact List.mem_cons_of_mem _ (List.mem_cons_of_mem _ h)
    · intro z hz
      rcases List.mem_cons.mp hz with h | h
      · rw [h]; exact le_trans hy hacc
      · exact hall z h

/-- Unfolding equation for `buildResultFromProbs` once the `max_by` result is
known. -/
theorem buildResultFromProbs_eq (labels backgroundLabels : List String)
    (thr : ℚ) (probs : List ℚ) (bestIdx : Nat) (bestProb : ℚ)
    (h : maxByProb probs.enum = some (bestIdx, bestProb)) :
    buildResultFromProbs labels backgroundLabels thr probs =
      some ⟨decide (thr ≤ bestProb) &&
              !(backgroundLabels.any (fun bg =>
                  bg == asciiLower ((labels.get? bestIdx).getD
                    ("class_" ++ toString bestIdx)))),
            some ⟨if backgroundLabels.any (fun bg =>
                    bg == asciiLower ((labels.get? bestIdx).getD
                      ("class_" ++ toString bestIdx))) then Decision.unknown
                  else Decision.label ((labels.get? bestIdx).getD
                    ("class_" ++ toString bestIdx)), bestProb⟩⟩ := by
  unfold buildResultFromProbs
  rw [h]

/-- Claim C1: the decision builder takes the maximal probability as
`best_prob` with `label` the label at an index attaining it; a
(case-normalized) background top label forces `decision = Unknown` and
`present = false` regardless of `best_prob`; otherwise
`decision = Label(label)` and `present ↔ best_prob ≥ presence_threshold`
(so equality at the threshold yields `present = true`); and the reported
confidence is `best_prob` in every case. -/
theorem C1_decision_builder (labels backgroundLabels : List String) (thr : ℚ)
    (probs : List ℚ) (hne : probs ≠ []) (hlen : probs.length = labels.length) :
    ∃ r bestIdx lab bestProb,
      buildResultFromProbs labels backgroundLabels thr probs = some r ∧
      probs.get? bestIdx = some bestProb ∧
      labels.get? bestIdx = some lab ∧
      (∀ q ∈ probs, q ≤ bestProb) ∧
      (backgroundLabels.any (fun bg => bg == asciiLower lab) = true →
        r.present = false ∧ r.classification = some ⟨Decision.unknown, bestProb⟩) ∧
      (backgroundLabels.any (fun bg => bg == asciiLower lab) = false →
        r.classification = some ⟨Decision.label lab, bestProb⟩ ∧
        (r.present = true ↔ thr ≤ bestProb)) := by
  obtain ⟨p, ps, rfl⟩ := List.exists_cons_of_ne_nil hne
  obtain ⟨hmem, hacc, hall⟩ := maxByProb_fold_spec (ps.enumFrom 1) ((0 : Nat), p)
  set m := (ps.enumFrom 1).foldl (fun acc y => if y.2 < acc.2 then acc else y)
    ((0 : Nat), p) with hm
  have henum : (p :: ps).enum = ((0 : Nat), p) :: ps.enumFrom 1 := rfl
  have hmax : maxByProb (p :: ps).enum = some (m.1, m.2) := by
    rw [henum, maxByProb, Prod.mk.eta]
  have hmem' : m ∈ (p :: ps).enum := by rw [henum]; exact hmem
  have hget : (p :: ps).get? m.1 = some m.2 := List.mem_enum_iff_get?.mp hmem'
  have hlt : m.1 < (p :: ps).length := (List.get?_eq_some.mp hget).1
  have hlt' : m.1 < labels.length := hlen ▸ hlt
  have hlab : labels.get? m.1 = some (labels.get ⟨m.1, hlt'⟩) := List.get?_eq_get hlt'
  have hub : ∀ q ∈ p :: ps, q ≤ m.2 := by
    intro q hq
    rw [← List.enum_map_snd (p :: ps)] at hq
    obtain ⟨y, hy, rfl⟩ := List.mem_map.mp hq
    rw [henum] at hy
    rcases List.mem_cons.mp hy with h | h
    · rw [h]; exact hacc
    · exact hall y h
  have hE := buildResultFromProbs_eq labels backgroundLabels thr (p :: ps) m.1 m.2 hmax
  rw [hlab, Option.getD_some] at hE
  refine ⟨_, m.1, labels.get ⟨m.1, hlt'⟩, m.2, hE, hget, hlab, hub, ?_, ?_⟩
  · intro hbg
    exact ⟨by simp only [hbg]; simp, by simp only [hbg]; simp⟩
  · intro hbg
    exact ⟨by simp only [hbg]; simp, by simp only [hbg]; simp⟩

/-- Witness for C1 at a concrete input: two labels, the second one a
background label topping the vector. -/
theorem C1_decision_builder_witness :
    ∃ r bestIdx lab bestProb,
      buildResultFromProbs ["sparrow", "bg"] ["bg"] 2 [1, 3] = some r ∧
      [(1 : ℚ), 3].get? bestIdx = some bestProb ∧
      ["sparrow", "bg"].get? bestIdx = some lab ∧
      (∀ q ∈ [(1 : ℚ), 3], q ≤ bestProb) ∧
      (["bg"].any (fun bg => bg == asciiLower lab) = true →
        r.present = false ∧ r.classification = some ⟨Decision.unknown, bestProb⟩) ∧
      (["bg"].any (fun bg => bg == asciiLower lab) = false →
        r.classification = some ⟨Decision.label lab, bestProb⟩ ∧
        (r.present = true ↔ (2 : ℚ) ≤ bestProb)) :=
  C1_decision_builder ["sparrow", "bg"] ["bg"] 2 [1, 3] (by decide) (by decide)

/-! ## Claim C6 — label parsing -/

/-- Counterexample for claim C6: on the label file lines
`["dog.", "cat", "dog."]` the code keeps the trailing `.` and keeps the
non-consecutive duplicate, while the claim's rule produces `["dog", "cat"]`. -/
theorem C6_label_parsing_counterexample :
    newClassifierLabels ["dog.", "cat", "dog."] = some ["dog.", "cat", "dog."] ∧
    claimParseLabels ["dog.", "cat", "dog."] = some ["dog", "cat"] ∧
    newClassifierLabels ["dog.", "cat", "dog."] ≠
      claimParseLabels ["dog.", "cat", "dog."] := by
  refine ⟨by decide, by decide, by decide⟩

/-- `dedupConsecAux` computes Mathlib's `destutter'` of the `≠` relation. -/
theorem destutter'_eq_dedupConsecAux (l : List String) :
    ∀ a, List.destutter' (fun x y => x ≠ y) a l = a :: dedupConsecAux a l := by
  induction l with
  | nil => intro a; rfl
  | cons b rest ih =>
    intro a
    by_cases h : b = a
    · subst h
      rw [List.destutter', dedupConsecAux]
      simp [ih]
    · rw [List.destutter', dedupConsecAux]
      have hne : a ≠ b := fun hc => h hc.symm
      simp [hne, h, ih]

/-- `dedupConsec` is `destutter (· ≠ ·)`. -/
theorem dedupConsec_eq_destutter (l : List String) :
    dedupConsec l = l.destutter (fun x y => x ≠ y) := by
  cases l with
  | nil => rfl
  | cons a rest =>
    rw [dedupConsec, List.destutter, destutter'_eq_dedupConsecAux]

/-- Claim C6 (amended): each non-empty line's text up to the first comma,
trimmed of trailing `,` characters and surrounding whitespace, is the
canonical label; only *consecutive* exact duplicates are removed (keeping the
first of each run, i.e. the list is destuttered); construction fails exactly
when every line parses to the empty label. -/
theorem C6_label_parsing_amended (lines : List String) :
    (newClassifierLabels lines = none ↔ ∀ line ∈ lines, parseLabelLine line = "") ∧
    ∀ out, newClassifierLabels lines = some out →
      out = ((lines.map parseLabelLine).filter (fun l => l ≠ "")).destutter
          (fun x y => x ≠ y) ∧
      out ≠ [] ∧
      ∀ l ∈ out, l ≠ "" ∧ ∃ line ∈ lines, parseLabelLine line = l := by
  constructor
  · rw [newClassifierLabels]
    constructor
    · intro h
      by_cases hc : parseLabels lines = []
      · intro line hline
        by_contra hne
        have : parseLabelLine line ∈ parseLabels lines := by
          rw [parseLabels]
          exact List.mem_filter.mpr ⟨List.mem_map_of_mem _ hline, by simpa using hne⟩
        rw [hc] at this
        exact absurd this (List.not_mem_nil _)
      · rw [if_neg hc] at h
        exact absurd h (by simp)
    · intro h
      have hc : parseLabels lines = [] := by
        rw [parseLabels, List.filter_eq_nil]
        intro l hl
        obtain ⟨line, hline, rfl⟩ := List.mem_map.mp hl
        simpa using h line hline
      rw [if_pos hc]
  · intro out hout
    rw [newClassifierLabels] at hout
    by_cases hc : parseLabels lines = []
    · rw [if_pos hc] at hout; exact absurd hout (by simp)
    · rw [if_neg hc] at hout
      have hout' : out = dedupConsec (parseLabels lines) := by
        exact (Option.some_injective _ hout).symm
      have hdes : out = (parseLabels lines).destutter (fun x y => x ≠ y) := by
        rw [hout', dedupConsec_eq_destutter]
      refine ⟨hdes, ?_, ?_⟩
      · rw [hdes]
        intro hnil
        exact hc ((List.destutter_eq_nil _).mp hnil)
      · intro l hl
        have hmem : l ∈ parseLabels lines := by
          rw [hdes] at hl
          exact (List.destutter_sublist _ _).mem hl
        rw [parseLabels] at hmem
        have := List.mem_filter.mp hmem
        obtain ⟨line, hline, rfl⟩ := List.mem_map.mp this.1
        exact ⟨by simpa using this.2, line, hline, rfl⟩

/-- Witness for C6 (amended) at a concrete input: a consecutive duplicate is
collapsed. -/
theorem C6_label_parsing_amended_witness :
    newClassifierLabels ["a", "a", "b"] = some ["a", "b"] ∧
    ["a", "b"] = (( ["a", "a", "b"].map parseLabelLine).filter
        (fun l => l ≠ "")).destutter (fun x y => x ≠ y) :=
  ⟨by decide,
   ((C6_label_parsing_amended ["a", "a", "b"]).2 ["a", "b"] (by decide)).1⟩

/-! ## Claim C2 — cache validation -/

/-- The validation loop succeeds exactly when every cached row's `rel_path`
resolves to a current file with the recorded signature. -/
theorem restoreRows_isSome_iff (current : List (String × Nat × Nat))
    (files : List CachedFile) :
    (restoreRows current files).isSome ↔
      ∀ e ∈ files, findSig current e.rel_path = some (e.size, e.modified) := by
  induction files with
  | nil => simp [restoreRows]
  | cons e rest ih =>
    rw [restoreRows]
    cases hf : findSig current e.rel_path with
    | none =>
      simp only []
      constructor
      · intro h; exact absurd h (by simp)
      · intro h
        have he := h e (List.mem_cons_self _ _)
        rw [hf] at he
        exact absurd he (by simp)
    | some sm =>
      dsimp only
      by_cases hc : sm.1 = e.size ∧ sm.2 = e.modified
      · rw [if_pos hc]
        constructor
        · intro h
          intro x hx
          rcases List.mem_cons.mp hx with rfl | hx'
          · rw [hf]
            have : sm = (x.size, x.modified) := Prod.ext hc.1 hc.2
            rw [this]
          · exact (ih.mp (by simpa using h)) x hx'
        · intro h
          simpa using ih.mpr (fun x hx => h x (List.mem_cons_of_mem _ hx))
      · rw [if_neg hc]
        constructor
        · intro h; exact absurd h (by simp)
        · intro h
          have he := h e (List.mem_cons_self _ _)
          rw [hf] at he
          have hsm : sm = (e.size, e.modified) := by injection he
          exact (hc ⟨by rw [hsm], by rw [hsm]⟩).elim

/-- On success the validation loop rebuilds the rows verbatim from the cached
entries, in cached order. -/
theorem restoreRows_eq_map (current : List (String × Nat × Nat))
    (files : List CachedFile) :
    ∀ rows, restoreRows current files = some rows →
      rows = files.map
        (fun e => (⟨e.rel_path, e.present, e.classification⟩ : ImageRow)) := by
  induction files with
  | nil =>
    intro rows h
    rw [restoreRows] at h
    simpa using h.symm
  | cons e rest ih =>
    intro rows h
    rw [restoreRows] at h
    cases hf : findSig current e.rel_path with
    | none => rw [hf] at h; exact absurd h (by simp)
    | some sm =>
      rw [hf] at h
      dsimp only at h
      by_cases hc : sm.1 = e.size ∧ sm.2 = e.modified
      · rw [if_pos hc] at h
        cases hrest : restoreRows current rest with
        | none => rw [hrest] at h; exact absurd h (by simp)
        | some rs =>
          rw [hrest] at h
          have hrows : (⟨e.rel_path, e.present, e.classification⟩ : ImageRow) :: rs
              = rows := by simpa using h
          rw [← hrows, List.map_cons, ih rs hrest]
      · rw [if_neg hc] at h; exact absurd h (by simp)

/-- On full validity the loop succeeds with exactly the cached rows. -/
theorem restoreRows_eq_of_valid (current : List (String × Nat × Nat))
    (files : List CachedFile)
    (h : ∀ e ∈ files, findSig current e.rel_path = some (e.size, e.modified)) :
    restoreRows current files = some (files.map
      (fun e => (⟨e.rel_path, e.present, e.classification⟩ : ImageRow))) := by
  obtain ⟨rows, hrows⟩ :=
    Option.isSome_iff_exists.mp ((restoreRows_isSome_iff current files).mpr h)
  rw [hrows, restoreRows_eq_map current files rows hrows]

/-- Claim C2: a cached scan is trusted (`Hit`) exactly when the current file
count equals both the cached row count and the recorded total and every
cached row's `rel_path` resolves to a current file with the identical
`(size, modified)` signature; on a hit the rows are restored verbatim from
the cache, and on any discrepancy nothing is restored (`none`, no partial
reuse). -/
theorem C2_cache_validation (current : List (String × Nat × Nat))
    (cached : CachedScan) :
    ((tryLoadCachedScan current cached).isSome ↔
      (current.length = cached.files.length ∧
       current.length = cached.total_files ∧
       ∀ e ∈ cached.files,
         findSig current e.rel_path = some (e.size, e.modified))) ∧
    ∀ rows, tryLoadCachedScan current cached = some rows →
      rows = cached.files.map
        (fun e => (⟨e.rel_path, e.present, e.classification⟩ : ImageRow)) := by
  constructor
  · rw [tryLoadCachedScan]
    by_cases hcnt : current.length = cached.files.length ∧
        current.length = cached.total_files
    · rw [if_pos hcnt, restoreRows_isSome_iff]
      exact ⟨fun h => ⟨hcnt.1, hcnt.2, h⟩, fun h => h.2.2⟩
    · rw [if_neg hcnt]
      constructor
      · intro h; exact absurd h (by simp)
      · intro h; exact absurd ⟨h.1, h.2.1⟩ hcnt
  · intro rows h
    rw [tryLoadCachedScan] at h
    by_cases hcnt : current.length = cached.files.length ∧
        current.length = cached.total_files
    · rw [if_pos hcnt] at h
      exact restoreRows_eq_map current cached.files rows h
    · rw [if_neg hcnt] at h
      exact absurd h (by simp)

/-- Witness for C2 at a concrete input: a one-file folder whose signature
matches the cache restores the cached row. -/
theorem C2_cache_validation_witness :
    [(⟨"a", true, none⟩ : ImageRow)] =
      ([⟨"a", 5, 7, true, none⟩] : List CachedFile).map
        (fun e => (⟨e.rel_path, e.present, e.classification⟩ : ImageRow)) :=
  (C2_cache_validation [("a", 5, 7)] ⟨0, "v1", [⟨"a", 5, 7, true, none⟩], 1⟩).2
    [⟨"a", true, none⟩] (by decide)

/-! ## Claim C5 — cache round trip -/

/-- A `filterMap` over rows whose signature reads all succeed has one entry
per row. -/
theorem filterMap_sig_length {β : Type} (rows : List ImageRow)
    (sig : String → Option (Nat × Nat)) (f : ImageRow → Nat × Nat → β)
    (h : ∀ r ∈ rows, (sig r.file).isSome) :
    (rows.filterMap (fun r => (sig r.file).map (f r))).length = rows.length := by
  induction rows with
  | nil => rfl
  | cons r rest ih =>
    obtain ⟨sm, hsm⟩ := Option.isSome_iff_exists.mp (h r (List.mem_cons_self _ _))
    rw [List.filterMap_cons, hsm]
    simp [ih (fun x hx => h x (List.mem_cons_of_mem _ hx))]

/-- In the rebuilt signature map of an unmodified folder, a row's relative
path resolves to its own recorded signature (relative paths are unique). -/
theorem findSig_filterMap_of_nodup (sig : String → Option (Nat × Nat))
    (rows : List ImageRow) (hnd : (rows.map ImageRow.file).Nodup)
    (r : ImageRow) (hr : r ∈ rows) (s m : Nat) (hsm : sig r.file = some (s, m)) :
    findSig (rows.filterMap
        (fun x => (sig x.file).map (fun sm => (x.file, sm.1, sm.2)))) r.file
      = some (s, m) := by
  induction rows with
  | nil => cases hr
  | cons r0 rest ih =>
    rw [List.map_cons, List.nodup_cons] at hnd
    rw [List.filterMap_cons]
    rcases List.mem_cons.mp hr with rfl | hr'
    · rw [hsm]
      simp only [Option.map_some']
      rw [findSig, List.find?_cons_of_pos _ (by simp)]
      rfl
    · have hne : r.file ≠ r0.file := by
        intro he
        exact hnd.1 (he ▸ List.mem_map_of_mem _ hr')
      cases hs0 : sig r0.file with
      | none =>
        simp only [Option.map_none']
        exact ih hnd.2 hr'
      | some sm0 =>
        simp only [Option.map_some']
        rw [findSig, List.find?_cons_of_neg _ (by simpa using Ne.symm hne)]
        exact ih hnd.2 hr'

/-- Restoring the saved cache entries yields the original rows. -/
theorem saved_files_map_restore (rows : List ImageRow)
    (sig : String → Option (Nat × Nat)) (h : ∀ r ∈ rows, (sig r.file).isSome) :
    ((rows.filterMap (fun r => (sig r.file).map
        (fun sm => (⟨r.file, sm.1, sm.2, r.present, r.classification⟩ :
          CachedFile)))).map
      (fun e => (⟨e.rel_path, e.present, e.classification⟩ : ImageRow))) =
      rows := by
  induction rows with
  | nil => rfl
  | cons r rest ih =>
    obtain ⟨sm, hsm⟩ := Option.isSome_iff_exists.mp (h r (List.mem_cons_self _ _))
    rw [List.filterMap_cons, hsm]
    simp only [Option.map_some', List.map_cons]
    rw [ih (fun x hx => h x (List.mem_cons_of_mem _ hx))]

/-- Claim C5: scanning a folder, persisting the rows, then reopening the
unmodified folder (same files, same signatures, unique relative paths)
restores row-for-row identical results directly from the cache, with zero
model forward passes on the cache-hit path. -/
theorem C5_cache_round_trip (env : PipelineEnv)
    (perm : List (Nat × String) → List (Nat × String)) (batchSize : Nat)
    (mv : String) (now : Nat) (rows : List ImageRow)
    (sig : String → Option (Nat × Nat))
    (hnd : (rows.map ImageRow.file).Nodup)
    (hsig : ∀ r ∈ rows, (sig r.file).isSome) :
    openFolder env perm batchSize
      (rows.filterMap (fun r => (sig r.file).map (fun sm => (r.file, sm.1, sm.2))))
      (some (saveCacheForCurrentFolder mv now rows sig)) rows = (rows, 0) := by
  have hvalid : ∀ e ∈ (saveCacheForCurrentFolder mv now rows sig).files,
      findSig (rows.filterMap
          (fun r => (sig r.file).map (fun sm => (r.file, sm.1, sm.2)))) e.rel_path
        = some (e.size, e.modified) := by
    intro e he
    rw [saveCacheForCurrentFolder] at he
    obtain ⟨r, hr, hre⟩ := List.mem_filterMap.mp he
    obtain ⟨sm, hsm, rfl⟩ := Option.map_eq_some'.mp hre
    exact findSig_filterMap_of_nodup sig rows hnd r hr sm.1 sm.2
      (by rw [hsm])
  have hcnt1 : (rows.filterMap
      (fun r => (sig r.file).map (fun sm => (r.file, sm.1, sm.2)))).length =
      (saveCacheForCurrentFolder mv now rows sig).files.length := by
    rw [saveCacheForCurrentFolder]
    rw [filterMap_sig_length rows sig _ hsig, filterMap_sig_length rows sig _ hsig]
  have hcnt2 : (rows.filterMap
      (fun r => (sig r.file).map (fun sm => (r.file, sm.1, sm.2)))).length =
      (saveCacheForCurrentFolder mv now rows sig).total_files := by
    rw [saveCacheForCurrentFolder]
    rw [filterMap_sig_length rows sig _ hsig, filterMap_sig_length rows sig _ hsig]
  have hload : tryLoadCachedScan
      (rows.filterMap (fun r => (sig r.file).map (fun sm => (r.file, sm.1, sm.2))))
      (saveCacheForCurrentFolder mv now rows sig) = some rows := by
    rw [tryLoadCachedScan, if_pos ⟨hcnt1, hcnt2⟩,
      restoreRows_eq_of_valid _ _ hvalid]
    rw [saveCacheForCurrentFolder]
    rw [saved_files_map_restore rows sig hsig]
  rw [openFolder, Option.some_bind, hload]

/-- Witness for C5 at a concrete input: two scanned rows survive the
save/reopen round trip with zero forward passes. -/
theorem C5_cache_round_trip_witness :
    openFolder ⟨fun _ => none, fun p => p, [], [], 0⟩ (fun l => l) 8
      ([(⟨"a", true, none⟩ : ImageRow), ⟨"b", false, none⟩].filterMap
        (fun r => ((fun f => if f = "a" then some ((1 : Nat), (2 : Nat))
            else some (3, 4)) r.file).map (fun sm => (r.file, sm.1, sm.2))))
      (some (saveCacheForCurrentFolder "v" 0
        [(⟨"a", true, none⟩ : ImageRow), ⟨"b", false, none⟩]
        (fun f => if f = "a" then some (1, 2) else some (3, 4))))
      [(⟨"a", true, none⟩ : ImageRow), ⟨"b", false, none⟩] =
      ([(⟨"a", true, none⟩ : ImageRow), ⟨"b", false, none⟩], 0) :=
  C5_cache_round_trip ⟨fun _ => none, fun p => p, [], [], 0⟩ (fun l => l) 8
    "v" 0 [⟨"a", true, none⟩, ⟨"b", false, none⟩]
    (fun f => if f = "a" then some (1, 2) else some (3, 4))
    (by decide) (by decide)

/-! ## Claim C4 — auto batch-size tuner -/

/-- With both candidates measured, the selection picks the non-baseline size
exactly when it beats the baseline by more than the margin (and the running
best, initialized to the baseline time). -/
theorem chooseBatchSize_pair (t8 t12 : ℚ) :
    chooseBatchSize [(8, t8), (12, t12)] =
      if t12 < t8 * (1 - AUTO_BATCH_MIN_IMPROVEMENT) ∧ t12 < t8 then 12 else 8 := by
  by_cases hc : t12 < t8 * (1 - AUTO_BATCH_MIN_IMPROVEMENT) ∧ t12 < t8
  · simp [chooseBatchSize, AUTO_BATCH_BASELINE, hc]
  · simp [chooseBatchSize, AUTO_BATCH_BASELINE, hc]

/-- Fallback: with only the non-baseline candidate measured, the first
measured candidate is used. -/
theorem chooseBatchSize_single (t : ℚ) : chooseBatchSize [(12, t)] = 12 := rfl

/-- Above the minimum total the calibration loop measures exactly the two
candidates, baseline first. -/
theorem autoBatchTimings_eq (total : Nat) (tpi : Nat → ℚ)
    (h : AUTO_BATCH_MIN_TOTAL ≤ total) :
    autoBatchTimings total tpi AUTO_BATCH_CANDIDATES 0 =
      [(8, tpi 8), (12, tpi 12)] := by
  rw [AUTO_BATCH_MIN_TOTAL] at h
  rw [AUTO_BATCH_CANDIDATES, autoBatchTimings]
  rw [if_neg (by simp [AUTO_BATCH_TUNE_BATCHES]; omega)]
  rw [if_pos (by simp [AUTO_BATCH_TUNE_BATCHES])]
  rw [autoBatchTimings]
  rw [if_neg (by simp [AUTO_BATCH_TUNE_BATCHES]; omega)]
  rw [if_pos (by simp [AUTO_BATCH_TUNE_BATCHES])]
  rw [autoBatchTimings]

/-- Claim C4: below the 1000-row threshold tuning is skipped and the baseline
batch size is used; at or above it both candidates are measured (baseline
first) and a non-baseline size is selected only when its measured per-image
time beats the baseline's by more than the 15% margin and is strictly better
than every other measured candidate's; had the baseline not been measured,
the first measured candidate (or the baseline, with no measurements at all)
would be used. -/
theorem C4_auto_batch_tuner (total : Nat) (tpi : Nat → ℚ) :
    (total < AUTO_BATCH_MIN_TOTAL →
      classifyAutoBatchChosen total tpi = AUTO_BATCH_BASELINE) ∧
    (AUTO_BATCH_MIN_TOTAL ≤ total →
      autoBatchTimings total tpi AUTO_BATCH_CANDIDATES 0 =
        [(8, tpi 8), (12, tpi 12)] ∧
      (classifyAutoBatchChosen total tpi = 12 ↔
        tpi 12 < tpi 8 * (1 - AUTO_BATCH_MIN_IMPROVEMENT) ∧ tpi 12 < tpi 8) ∧
      (classifyAutoBatchChosen total tpi ≠ AUTO_BATCH_BASELINE →
        classifyAutoBatchChosen total tpi = 12 ∧
        tpi 12 < tpi 8 * (1 - AUTO_BATCH_MIN_IMPROVEMENT) ∧
        ∀ u ∈ autoBatchTimings total tpi AUTO_BATCH_CANDIDATES 0,
          u.1 ≠ 12 → tpi 12 < u.2)) ∧
    (∀ t : ℚ, chooseBatchSize [(12, t)] = 12) ∧
    chooseBatchSize [] = AUTO_BATCH_BASELINE := by
  refine ⟨?_, ?_, fun t => chooseBatchSize_single t, rfl⟩
  · intro h
    rw [classifyAutoBatchChosen, if_pos h]
  · intro h
    have hT := autoBatchTimings_eq total tpi h
    have hch : classifyAutoBatchChosen total tpi =
        if tpi 12 < tpi 8 * (1 - AUTO_BATCH_MIN_IMPROVEMENT) ∧ tpi 12 < tpi 8
        then 12 else 8 := by
      rw [classifyAutoBatchChosen,
        if_neg (by rw [AUTO_BATCH_MIN_TOTAL] at h ⊢; omega), hT,
        chooseBatchSize_pair]
    refine ⟨hT, ?_, ?_⟩
    · by_cases hc : tpi 12 < tpi 8 * (1 - AUTO_BATCH_MIN_IMPROVEMENT) ∧ tpi 12 < tpi 8
      · rw [hch, if_pos hc]
        exact ⟨fun _ => hc, fun _ => rfl⟩
      · rw [hch, if_neg hc]
        exact ⟨fun hx => absurd hx (by norm_num), fun hx => absurd hx hc⟩
    · intro hne
      by_cases hc : tpi 12 < tpi 8 * (1 - AUTO_BATCH_MIN_IMPROVEMENT) ∧ tpi 12 < tpi 8
      · rw [hch, if_pos hc]
        refine ⟨rfl, hc.1, ?_⟩
        intro u hu hu12
        rw [hT] at hu
        rcases List.mem_cons.mp hu with rfl | hu'
        · exact hc.2
        · rcases List.mem_cons.mp hu' with rfl | hu''
          · exact absurd rfl hu12
          · exact absurd hu'' (List.not_mem_nil _)
      · rw [hch, if_neg hc] at hne
        exact absurd rfl hne

/-- Witness for C4 at a concrete input: 2000 rows, the candidate measures
faster than the margin, so it is selected. -/
theorem C4_auto_batch_tuner_witness :
    autoBatchTimings 2000 (fun c => if c = 12 then (0 : ℚ) else 1)
      AUTO_BATCH_CANDIDATES 0 = [(8, 1), (12, 0)] ∧
    classifyAutoBatchChosen 2000 (fun c => if c = 12 then (0 : ℚ) else 1) = 12 := by
  have h := (C4_auto_batch_tuner 2000
    (fun c => if c = 12 then (0 : ℚ) else 1)).2.1
    (by norm_num [AUTO_BATCH_MIN_TOTAL])
  exact ⟨by simpa using h.1,
    h.2.1.mpr (by norm_num [AUTO_BATCH_MIN_IMPROVEMENT])⟩

/-! ## Claim C9 — preprocessor output layout -/

/-- Claim C9: for a successfully decoded and resized image (interleaved RGB
bytes of length `3*N*N`), the preprocessor output has length `3*N*N` in
channel-major layout: the value for channel `c` at pixel `i` sits at index
`c*N*N + i` and equals `(raw/255 - mean[c]) / std[c]` applied to interleaved
byte `3*i + c`. -/
theorem C9_preprocessor_layout (resized : List Nat) (size : Nat)
    (mean std : Fin 3 → ℚ) (hlen : resized.length = 3 * (size * size)) :
    (loadImageTensorData resized size mean std).length = 3 * (size * size) ∧
    ∀ (c : Fin 3) (i : Nat), i < size * size →
      (loadImageTensorData resized size mean std).get?
          ((c : Nat) * (size * size) + i) =
        some (normalizeChannel (resized.getD (3 * i + (c : Nat)) 0)
          (mean c) (std c)) := by
  set hw := size * size with hhw
  set step : List ℚ → Nat → List ℚ := fun data idx =>
    ((data.set idx
        (normalizeChannel (resized.getD (idx * 3) 0) (mean 0) (std 0))).set
      (hw + idx)
        (normalizeChannel (resized.getD (idx * 3 + 1) 0) (mean 1) (std 1))).set
      (2 * hw + idx)
        (normalizeChannel (resized.getD (idx * 3 + 2) 0) (mean 2) (std 2))
    with hstep
  have hload : loadImageTensorData resized size mean std =
      (List.range hw).foldl step (List.replicate (hw * 3) 0) := rfl
  have hstepLen : ∀ (init : List ℚ) (idx : Nat),
      (step init idx).length = init.length := by
    intro init idx
    simp only [hstep]
    simp
  have hfoldLen : ∀ (ks : List Nat) (init : List ℚ),
      (ks.foldl step init).length = init.length := by
    intro ks
    induction ks with
    | nil => intro init; rfl
    | cons a as ih =>
      intro init
      rw [List.foldl_cons, ih, hstepLen]
  have hval : ∀ k, k ≤ hw → ∀ j, j < hw * 3 →
      ((List.range k).foldl step (List.replicate (hw * 3) 0)).get? j =
        some (if j < hw then
                (if j < k then
                  normalizeChannel (resized.getD (j * 3) 0) (mean 0) (std 0)
                 else 0)
              else if j < 2 * hw then
                (if j - hw < k then
                  normalizeChannel (resized.getD ((j - hw) * 3 + 1) 0)
                    (mean 1) (std 1)
                 else 0)
              else
                (if j - 2 * hw < k then
                  normalizeChannel (resized.getD ((j - 2 * hw) * 3 + 2) 0)
                    (mean 2) (std 2)
                 else 0)) := by
    intro k
    induction k with
    | zero =>
      intro _ j hj
      rw [List.range_zero, List.foldl_nil, List.get?_eq_getElem?]
      simp only [List.getElem?_replicate, if_pos hj]
      congr 1
      simp
    | succ k ih =>
      intro hk j hj
      have hk' : k ≤ hw := Nat.le_of_succ_le hk
      have hkk : k < hw := hk
      have hprevlen :
          ((List.range k).foldl step (List.replicate (hw * 3) 0)).length =
            hw * 3 := by
        rw [hfoldLen]
        exact List.length_replicate _ _
      rw [List.range_succ, List.foldl_append, List.foldl_cons, List.foldl_nil]
      simp only [hstep] at hprevlen ⊢
      by_cases h2 : j = 2 * hw + k
      · subst h2
        rw [List.get?_set_eq_of_lt _ (by simp only [List.length_set]; rw [hprevlen]; omega)]
        rw [if_neg (by omega), if_neg (by omega), if_pos (by omega)]
        have he : 2 * hw + k - 2 * hw = k := by omega
        rw [he]
      · by_cases h1 : j = hw + k
        · subst h1
          rw [List.get?_set_ne _ _ (by omega)]
          rw [List.get?_set_eq_of_lt _ (by simp only [List.length_set]; rw [hprevlen]; omega)]
          rw [if_neg (by omega), if_pos (by omega), if_pos (by omega)]
          have he : hw + k - hw = k := by omega
          rw [he]
        · by_cases h0 : j = k
          · subst h0
            rw [List.get?_set_ne _ _ (by omega), List.get?_set_ne _ _ (by omega)]
            rw [List.get?_set_eq_of_lt _ (by rw [hprevlen]; omega)]
            rw [if_pos (by omega), if_pos (by omega)]
          · rw [List.get?_set_ne _ _ (by omega), List.get?_set_ne _ _ (by omega),
              List.get?_set_ne _ _ (by omega)]
            rw [ih hk' j hj]
            congr 1
            by_cases hA : j < hw
            · rw [if_pos hA, if_pos hA]
              by_cases hB : j < k
              · rw [if_pos hB, if_pos (by omega)]
              · rw [if_neg hB, if_neg (by omega)]
            · rw [if_neg hA, if_neg hA]
              by_cases hC : j < 2 * hw
              · rw [if_pos hC, if_pos hC]
                by_cases hB : j - hw < k
                · rw [if_pos hB, if_pos (by omega)]
                · rw [if_neg hB, if_neg (by omega)]
              · rw [if_neg hC, if_neg hC]
                by_cases hB : j - 2 * hw < k
                · rw [if_pos hB, if_pos (by omega)]
                · rw [if_neg hB, if_neg (by omega)]
  constructor
  · rw [hload, hfoldLen, List.length_replicate]
    omega
  · intro c i hi
    have hc2 : (c : Nat) ≤ 2 := by omega
    have hj : (c : Nat) * hw + i < hw * 3 := by
      have hmul : (c : Nat) * hw ≤ 2 * hw := Nat.mul_le_mul_right hw hc2
      omega
    rw [hload, hval hw (le_refl hw) ((c : Nat) * hw + i) hj]
    fin_cases c
    · simp only [Fin.isValue, Fin.val_zero, Nat.zero_mul, Nat.zero_add]
      rw [if_pos hi, if_pos hi]
      have he : i * 3 = 3 * i + 0 := by omega
      rw [he]
      rfl
    · simp only [Fin.isValue, Fin.val_one, Nat.one_mul]
      rw [if_neg (by omega), if_pos (by omega)]
      rw [if_pos (by omega)]
      have he : (hw + i - hw) * 3 + 1 = 3 * i + 1 := by omega
      rw [he]
      rfl
    · simp only [Fin.isValue]
      rw [if_neg (by omega), if_neg (by omega), if_pos (by omega)]
      have he : (2 * hw + i - 2 * hw) * 3 + 2 = 3 * i + 2 := by omega
      rw [he]
      rfl

/-- Witness for C9 at a concrete input: a 1×1 image with bytes
`[255, 0, 128]`. -/
theorem C9_preprocessor_layout_witness :
    (loadImageTensorData [255, 0, 128] 1 (fun _ => 0) (fun _ => 1)).length =
      3 * (1 * 1) ∧
    ∀ (c : Fin 3) (i : Nat), i < 1 * 1 →
      (loadImageTensorData [255, 0, 128] 1 (fun _ => 0) (fun _ => 1)).get?
          ((c : Nat) * (1 * 1) + i) =
        some (normalizeChannel ([255, 0, 128].getD (3 * i + (c : Nat)) 0) 0 1) :=
  C9_preprocessor_layout [255, 0, 128] 1 (fun _ => 0) (fun _ => 1) (by decide)

/-! ## Pipeline infrastructure lemmas -/

/-- Chunking partitions the list: the chunks reassemble to the input. -/
theorem chunksList_flatten {α : Type} (n : Nat) : ∀ l : List α,
    (chunksList n l).flatten = l
  | [] => by rw [chunksList]; rfl
  | x :: xs => by
    rw [chunksList, List.flatten_cons, chunksList_flatten n (xs.drop (n - 1)),
      List.cons_append, List.take_append_drop]
  termination_by l => l.length
  decreasing_by simp; omega

/-- Every chunk is non-empty. -/
theorem chunksList_ne_nil {α : Type} (n : Nat) : ∀ (l : List α),
    ∀ c ∈ chunksList n l, c ≠ []
  | [] => by rw [chunksList]; intro c hc; cases hc
  | x :: xs => by
    rw [chunksList]
    intro c hc
    rcases List.mem_cons.mp hc with rfl | hc'
    · exact List.cons_ne_nil _ _
    · exact chunksList_ne_nil n (xs.drop (n - 1)) c hc'
  termination_by l => l.length
  decreasing_by simp; omega

/-- Chunking a non-empty list yields at least one chunk. -/
theorem chunksList_ne_nil_of_ne_nil {α : Type} (n : Nat) (l : List α)
    (h : l ≠ []) : chunksList n l ≠ [] := by
  cases l with
  | nil => exact absurd rfl h
  | cons x xs => rw [chunksList]; exact List.cons_ne_nil _ _

/-- Insertion keeps the multiset of elements. -/
theorem insertByFst_perm {α : Type} (x : Nat × α) : ∀ l : List (Nat × α),
    (insertByFst x l).Perm (x :: l)
  | [] => List.Perm.refl _
  | y :: ys => by
    rw [insertByFst]
    by_cases h : x.1 ≤ y.1
    · rw [if_pos h]
    · rw [if_neg h]
      exact ((insertByFst_perm x ys).cons y).trans (List.Perm.swap x y ys)

/-- The sort keeps the multiset of elements. -/
theorem sortByFst_perm {α : Type} : ∀ l : List (Nat × α), (sortByFst l).Perm l
  | [] => List.Perm.refl _
  | x :: xs =>
    (insertByFst_perm x (sortByFst xs)).trans ((sortByFst_perm xs).cons x)

/-- Insertion preserves sortedness by key. -/
theorem insertByFst_sorted {α : Type} (x : Nat × α) : ∀ l : List (Nat × α),
    l.Pairwise (fun a b => a.1 ≤ b.1) →
    (insertByFst x l).Pairwise (fun a b => a.1 ≤ b.1)
  | [], _ => List.pairwise_singleton _ _
  | y :: ys, h => by
    rw [insertByFst]
    by_cases hxy : x.1 ≤ y.1
    · rw [if_pos hxy]
      refine List.Pairwise.cons ?_ h
      intro z hz
      rcases List.mem_cons.mp hz with rfl | hz'
      · exact hxy
      · exact le_trans hxy (List.rel_of_pairwise_cons h hz')
    · rw [if_neg hxy]
      have hyx : y.1 ≤ x.1 := le_of_not_le hxy
      refine List.Pairwise.cons ?_ (insertByFst_sorted x ys (List.Pairwise.of_cons h))
      intro z hz
      have := (insertByFst_perm x ys).mem_iff.mp hz
      rcases List.mem_cons.mp this with rfl | hz'
      · exact hyx
      · exact List.rel_of_pairwise_cons h hz'

/-- The sort output is sorted by key. -/
theorem sortByFst_sorted {α : Type} : ∀ l : List (Nat × α),
    (sortByFst l).Pairwise (fun a b => a.1 ≤ b.1)
  | [] => List.Pairwise.nil
  | x :: xs => insertByFst_sorted x (sortByFst xs) (sortByFst_sorted xs)

/-- A permutation of a strictly key-sorted list that is itself weakly
key-sorted is equal to it: re-sorting by original index restores exactly the
enumeration order. -/
theorem sorted_perm_eq {α : Type} (l target : List (Nat × α))
    (hperm : l.Perm target)
    (hl : l.Pairwise (fun a b => a.1 ≤ b.1))
    (htarget : target.Pairwise (fun a b => a.1 < b.1)) : l = target := by
  haveI : IsAntisymm (Nat × α) (fun a b => a.1 < b.1) :=
    ⟨fun a b h1 h2 => absurd (lt_trans h1 h2) (lt_irrefl _)⟩
  have hnd : (l.map Prod.fst).Nodup := by
    have : (target.map Prod.fst).Nodup :=
      (List.pairwise_map).mpr (htarget.imp (fun h => Nat.ne_of_lt h))
    exact ((hperm.map Prod.fst).nodup_iff).mpr this
  have hne : l.Pairwise (fun a b => a.1 ≠ b.1) := (List.pairwise_map).mp hnd
  have hlt : l.Pairwise (fun a b => a.1 < b.1) :=
    (hl.and hne).imp (fun h => lt_of_le_of_ne h.1 h.2)
  exact List.eq_of_perm_of_sorted hperm hlt htarget

/-- `prepare_batch` under any parallel completion order: the sort restores
exactly the in-order preprocessed items. -/
theorem prepareBatchItems_eq (env : PipelineEnv)
    (perm : List (Nat × String) → List (Nat × String))
    (hperm : ∀ l, (perm l).Perm l) (files : List String) :
    prepareBatchItems env perm files =
      files.enum.map (fun p => (p.1, p.2, env.prep p.2)) := by
  rw [prepareBatchItems]
  apply sorted_perm_eq
  · exact (sortByFst_perm _).trans ((hperm files.enum).map _)
  · exact sortByFst_sorted _
  · have hfst : (files.enum.map (fun p => (p.1, p.2, env.prep p.2))).map Prod.fst
        = List.range files.length := by
      rw [List.map_map]
      exact List.enum_map_fst files
    have : ((files.enum.map (fun p => (p.1, p.2, env.prep p.2))).map
        Prod.fst).Pairwise (· < ·) := by
      rw [hfst]
      exact List.pairwise_lt_range _
    exact (List.pairwise_map).mp this

/-- `setWith` does not change the length. -/
theorem setWith_length {α : Type} (l : List α) (i : Nat) (f : α → α) :
    (setWith l i f).length = l.length := by
  rw [setWith]
  cases l.get? i with
  | none => rfl
  | some r => exact List.length_set l i (f r)

/-- Reading the written index. -/
theorem setWith_get?_self {α : Type} (l : List α) (i : Nat) (f : α → α) :
    (setWith l i f).get? i = (l.get? i).map f := by
  rw [setWith]
  cases h : l.get? i with
  | none => rw [h]; rfl
  | some r =>
    rw [List.get?_set_eq_of_lt _ (List.get?_eq_some.mp h).1]
    rfl

/-- Reading any other index. -/
theorem setWith_get?_ne {α : Type} (l : List α) (i j : Nat) (f : α → α)
    (h : i ≠ j) : (setWith l i f).get? j = l.get? j := by
  rw [setWith]
  cases l.get? i with
  | none => rfl
  | some r => exact List.get?_set_ne _ _ h

/-- A fold of index updates leaves untouched indices unchanged. -/
theorem foldl_setWith_not_mem {α : Type} (upds : List (Nat × (α → α)))
    (l : List α) (j : Nat) (h : ∀ u ∈ upds, u.1 ≠ j) :
    ((upds.foldl (fun acc u => setWith acc u.1 u.2) l).get? j) = l.get? j := by
  induction upds generalizing l with
  | nil => rfl
  | cons u us ih =>
    rw [List.foldl_cons, ih _ (fun v hv => h v (List.mem_cons_of_mem _ hv))]
    exact setWith_get?_ne l u.1 j u.2 (h u (List.mem_cons_self _ _))

/-- Pointwise meaning of a fold of index updates with distinct indices: index
`j` receives exactly the update found for it, if any. -/
theorem foldl_setWith_get?_of_nodup {α : Type} (upds : List (Nat × (α → α)))
    (l : List α) (j : Nat) (hnd : (upds.map Prod.fst).Nodup) :
    ((upds.foldl (fun acc u => setWith acc u.1 u.2) l).get? j)
      = match upds.find? (fun u => u.1 == j) with
        | some u => (l.get? j).map u.2
        | none => l.get? j := by
  induction upds generalizing l with
  | nil => rfl
  | cons u us ih =>
    rw [List.map_cons, List.nodup_cons] at hnd
    rw [List.foldl_cons]
    by_cases hj : u.1 = j
    · rw [List.find?_cons_of_pos _ (by simp [hj])]
      have hus : ∀ v ∈ us, v.1 ≠ j := by
        intro v hv he
        exact hnd.1 (by rw [hj, ← he]; exact List.mem_map_of_mem _ hv)
      rw [foldl_setWith_not_mem us _ j hus, hj, setWith_get?_self]
    · rw [List.find?_cons_of_neg _ (by simp [hj])]
      rw [ih _ hnd.2]
      cases us.find? (fun u => u.1 == j) with
      | none => exact setWith_get?_ne l u.1 j u.2 hj
      | some v =>
        rw [setWith_get?_ne l u.1 j u.2 hj]

/-- `find?` by key over the kept entries of an enumerated `filterMap`,
starting at offset `n`. -/
theorem find?_enumFrom_filterMap {α β : Type} (F : Nat → α → Option β)
    (j : Nat) : ∀ (c : List α) (n : Nat),
    (((c.enumFrom n).filterMap
        (fun p => (F p.1 p.2).map (fun b => (p.1, b)))).find?
        (fun u => u.1 == j))
      = if n ≤ j then
          (c.get? (j - n)).bind (fun r => (F j r).map (fun b => (j, b)))
        else none
  | [], n => by
    rw [List.enumFrom_nil, List.filterMap_nil, List.find?_nil]
    cases Nat.decLe n j with
    | isTrue h => rw [if_pos h]; rfl
    | isFalse h => rw [if_neg h]
  | r :: rest, n => by
    rw [List.enumFrom_cons, List.filterMap_cons]
    cases hF : F n r with
    | some b =>
      simp only [Option.map_some']
      by_cases hnj : n = j
      · subst hnj
        rw [List.find?_cons_of_pos _ (by simp)]
        rw [if_pos (le_refl n), Nat.sub_self, List.get?_cons_zero,
          Option.some_bind, hF]
        rfl
      · rw [List.find?_cons_of_neg _ (by simp [hnj])]
        rw [find?_enumFrom_filterMap F j rest (n + 1)]
        by_cases hle : n ≤ j
        · have hlt : n + 1 ≤ j := by omega
          rw [if_pos hlt, if_pos hle]
          have hsub : j - n = (j - (n + 1)) + 1 := by omega
          rw [hsub, List.get?_cons_succ]
        · rw [if_neg (by omega), if_neg hle]
    | none =>
      simp only [Option.map_none']
      rw [find?_enumFrom_filterMap F j rest (n + 1)]
      by_cases hnj : n = j
      · subst hnj
        rw [if_neg (by omega), if_pos (le_refl n), Nat.sub_self,
          List.get?_cons_zero, Option.some_bind, hF]
        rfl
      · by_cases hle : n ≤ j
        · rw [if_pos (by omega), if_pos hle]
          have hsub : j - n = (j - (n + 1)) + 1 := by omega
          rw [hsub, List.get?_cons_succ]
        · rw [if_neg (by omega), if_neg hle]

/-- Specialization to `enum`. -/
theorem find?_enum_filterMap {α β : Type} (F : Nat → α → Option β)
    (c : List α) (j : Nat) :
    ((c.enum.filterMap
        (fun p => (F p.1 p.2).map (fun b => (p.1, b)))).find?
        (fun u => u.1 == j))
      = (c.get? j).bind (fun r => (F j r).map (fun b => (j, b))) := by
  rw [List.enum, find?_enumFrom_filterMap F j c 0, if_pos (Nat.zero_le j),
    Nat.sub_zero]

/-- The keys of an enumerated `filterMap` are distinct. -/
theorem nodup_enum_filterMap_keys {α β : Type} (F : Nat → α → Option β)
    (c : List α) :
    ((c.enum.filterMap
        (fun p => (F p.1 p.2).map (fun b => (p.1, b)))).map Prod.fst).Nodup := by
  have hsub : ∀ (l : List (Nat × α)),
      ((l.filterMap (fun p => (F p.1 p.2).map (fun b => (p.1, b)))).map
        Prod.fst).Sublist (l.map Prod.fst) := by
    intro l
    induction l with
    | nil => exact List.Sublist.refl _
    | cons p ps ih =>
      rw [List.filterMap_cons, List.map_cons]
      cases F p.1 p.2 with
      | none => exact ih.trans (List.sublist_cons_self _ _)
      | some b =>
        rw [Option.map_some', List.map_cons]
        exact ih.cons₂ p.1
  have : ((c.enum).map Prod.fst).Nodup := by
    rw [List.enum_map_fst]
    exact List.nodup_range _
  exact (hsub c.enum).nodup this

/-- The tensor-collection fold splits into its two components: the row
updates of the failures, and the ordered success queue. -/
theorem collectTensors_fold (items : List (Nat × String × Option (List ℚ))) :
    ∀ (rows : List ImageRow) (ts : List (Nat × List ℚ)),
    items.foldl
        (fun acc it => match it.2.2 with
          | some d => (acc.1, acc.2 ++ [(it.1, d)])
          | none => (setWith acc.1 it.1 markAbsent, acc.2)) (rows, ts)
      = (items.foldl
          (fun acc it => match it.2.2 with
            | some _ => acc
            | none => setWith acc it.1 markAbsent) rows,
         ts ++ items.filterMap (fun it => it.2.2.map (fun d => (it.1, d)))) := by
  induction items with
  | nil => intro rows ts; simp
  | cons it rest ih =>
    intro rows ts
    rw [List.foldl_cons, List.foldl_cons, List.filterMap_cons]
    cases h : it.2.2 with
    | some d =>
      simp only [h, Option.map_some']
      rw [ih]
      simp
    | none =>
      simp only [h, Option.map_none']
      rw [ih]

/-- `collectTensors` in terms of the canonical components. -/
theorem collectTensors_eq (chunk : List ImageRow)
    (items : List (Nat × String × Option (List ℚ))) :
    collectTensors chunk items
      = (items.foldl
          (fun acc it => match it.2.2 with
            | some _ => acc
            | none => setWith acc it.1 markAbsent) chunk,
         items.filterMap (fun it => it.2.2.map (fun d => (it.1, d)))) := by
  rw [collectTensors, collectTensors_fold]
  simp

/-- The failure pass is a fold of single-index updates. -/
theorem foldl_markAbsent_as_updates
    (items : List (Nat × String × Option (List ℚ))) :
    ∀ (rows : List ImageRow),
    items.foldl
        (fun acc it => match it.2.2 with
          | some _ => acc
          | none => setWith acc it.1 markAbsent) rows
      = (items.filterMap (fun it =>
          (match it.2.2 with
           | none => some markAbsent
           | some _ => (none : Option (ImageRow → ImageRow))).map
            (fun f => (it.1, f)))).foldl
          (fun acc u => setWith acc u.1 u.2) rows := by
  induction items with
  | nil => intro rows; rfl
  | cons it rest ih =>
    intro rows
    rw [List.foldl_cons, List.filterMap_cons]
    cases h : it.2.2 with
    | some d =>
      simp only [h, Option.map_none']
      exact ih rows
    | none =>
      simp only [h, Option.map_some']
      rw [List.foldl_cons]
      exact ih _

/-- The success queue is empty exactly when no image of the chunk
preprocessed successfully. -/
theorem tensorQueue_eq_nil_iff (env : PipelineEnv) (c : List ImageRow) :
    c.enum.filterMap (fun p => (env.prep p.2.file).map (fun d => (p.1, d))) = []
      ↔ c.any (fun r => (env.prep r.file).isSome) = false := by
  rw [List.filterMap_eq_nil, List.any_eq_false]
  constructor
  · intro h r hr
    rw [← List.enum_map_snd c] at hr
    obtain ⟨p, hp, rfl⟩ := List.mem_map.mp hr
    have := h p hp
    rw [Option.map_eq_none'] at this
    simp [this]
  · intro h p hp
    rw [Option.map_eq_none']
    have hr : p.2 ∈ c := by
      rw [← List.enum_map_snd c]
      exact List.mem_map_of_mem _ hp
    have := h p.2 hr
    simpa using this

/-- The heart of the consumer: writing each per-image result back at its
original index amounts to the per-row map. -/
theorem writeback_eq_map_perRow (env : PipelineEnv) (c : List ImageRow) :
    (((c.enum.filterMap (fun p => (env.prep p.2.file).map
          (fun d => (p.1, d)))).map
        (fun t => (t.1, applyProbs env (env.probsOf t.2)))).foldl
        (fun acc u => setWith acc u.1 u.2)
        ((c.enum.filterMap (fun p =>
            (match env.prep p.2.file with
             | none => some markAbsent
             | some _ => (none : Option (ImageRow → ImageRow))).map
              (fun f => (p.1, f)))).foldl
          (fun acc u => setWith acc u.1 u.2) c))
      = c.map (perRow env) := by
  apply List.ext_get?
  intro j
  have hnodupT : (((c.enum.filterMap (fun p => (env.prep p.2.file).map
      (fun d => (p.1, d)))).map
        (fun t => (t.1, applyProbs env (env.probsOf t.2)))).map Prod.fst).Nodup := by
    rw [List.map_map]
    exact nodup_enum_filterMap_keys (fun _ r => env.prep r.file) c
  have hnodupU1 : ((c.enum.filterMap (fun p =>
      (match env.prep p.2.file with
       | none => some markAbsent
       | some _ => (none : Option (ImageRow → ImageRow))).map
        (fun f => (p.1, f)))).map Prod.fst).Nodup :=
    nodup_enum_filterMap_keys
      (fun _ r => match env.prep r.file with
        | none => some markAbsent
        | some _ => none) c
  rw [foldl_setWith_get?_of_nodup _ _ j hnodupT]
  rw [List.find?_map]
  have hpred : ((fun u : Nat × (ImageRow → ImageRow) => u.1 == j) ∘
      (fun t : Nat × List ℚ => (t.1, applyProbs env (env.probsOf t.2))))
      = (fun t : Nat × List ℚ => t.1 == j) := rfl
  rw [hpred]
  rw [find?_enum_filterMap (fun _ r => env.prep r.file) c j]
  rw [foldl_setWith_get?_of_nodup _ _ j hnodupU1]
  rw [find?_enum_filterMap
    (fun _ r => match env.prep r.file with
      | none => some markAbsent
      | some _ => (none : Option (ImageRow → ImageRow))) c j]
  cases hc : c.get? j with
  | none =>
    have hc' : getElem? c j = none := by rw [← List.get?_eq_getElem?]; exact hc
    simp [List.get?_map, hc, hc']
  | some r =>
    have hc' : getElem? c j = some r := by rw [← List.get?_eq_getElem?]; exact hc
    cases hp : env.prep r.file with
    | some d => simp [List.get?_map, hc, hc', hp, perRow]
    | none => simp [List.get?_map, hc, hc', hp, perRow]

/-- The consumer body on the prepared items of a chunk equals the per-row
map, and performs one forward pass exactly when some image preprocessed
successfully. -/
theorem processChunk_spec (env : PipelineEnv) (c : List ImageRow) :
    processChunk env c
        ((c.map (fun r => r.file)).enum.map (fun p => (p.1, p.2, env.prep p.2)))
      = (c.map (perRow env),
         if c.any (fun r => (env.prep r.file).isSome) then 1 else 0) := by
  have hitems : (c.map (fun r => r.file)).enum.map
        (fun p => (p.1, p.2, env.prep p.2))
      = c.enum.map (fun p => (p.1, p.2.file, env.prep p.2.file)) := by
    rw [List.enum_map, List.map_map]
    rfl
  have hT : (c.enum.map (fun p => (p.1, p.2.file, env.prep p.2.file))).filterMap
        (fun it => it.2.2.map (fun d => (it.1, d)))
      = c.enum.filterMap (fun p => (env.prep p.2.file).map (fun d => (p.1, d))) := by
    rw [List.filterMap_map]
    rfl
  have hU1 : (c.enum.map (fun p => (p.1, p.2.file, env.prep p.2.file))).foldl
        (fun acc it => match it.2.2 with
          | some _ => acc
          | none => setWith acc it.1 markAbsent) c
      = (c.enum.filterMap (fun p =>
            (match env.prep p.2.file with
             | none => some markAbsent
             | some _ => (none : Option (ImageRow → ImageRow))).map
              (fun f => (p.1, f)))).foldl (fun acc u => setWith acc u.1 u.2) c := by
    rw [foldl_markAbsent_as_updates, List.filterMap_map]
    rfl
  rw [processChunk, hitems, collectTensors_eq]
  dsimp only
  rw [hT, hU1]
  by_cases hnil : c.enum.filterMap
      (fun p => (env.prep p.2.file).map (fun d => (p.1, d))) = []
  · have hany : c.any (fun r => (env.prep r.file).isSome) = false :=
      (tensorQueue_eq_nil_iff env c).mp hnil
    have hwb := writeback_eq_map_perRow env c
    rw [hnil] at hwb
    rw [List.map_nil, List.foldl_nil] at hwb
    rw [hnil, hany]
    simp only [List.isEmpty_nil, if_true, Bool.false_eq_true, if_false]
    rw [hwb]
  · have hany : c.any (fun r => (env.prep r.file).isSome) = true := by
      cases h : c.any (fun r => (env.prep r.file).isSome) with
      | false => exact absurd ((tensorQueue_eq_nil_iff env c).mpr h) hnil
      | true => rfl
    have hempty : (c.enum.filterMap
        (fun p => (env.prep p.2.file).map (fun d => (p.1, d)))).isEmpty = false := by
      cases hl : (c.enum.filterMap
          (fun p => (env.prep p.2.file).map (fun d => (p.1, d)))).isEmpty with
      | false => rfl
      | true => exact absurd (List.isEmpty_iff.mp hl) hnil
    rw [hany, hempty]
    simp only [Bool.false_eq_true, if_false, if_true]
    have hwb := writeback_eq_map_perRow env c
    rw [List.foldl_map] at hwb
    rw [List.zip_map', List.foldl_map]
    refine Prod.ext ?_ rfl
    exact hwb

/-- The consumer loop writes back every chunk as its per-row map, in order. -/
theorem classifyGo_rows (env : PipelineEnv)
    (perm : List (Nat × String) → List (Nat × String))
    (hperm : ∀ l, (perm l).Perm l) :
    ∀ (cs : List (List ImageRow)) (total processed : Nat),
    (∀ c ∈ cs, c ≠ []) →
    (classifyGo env perm cs total processed).1
      = (cs.map (fun c => c.map (perRow env))).flatten := by
  intro cs
  induction cs with
  | nil => intro total processed _; rfl
  | cons c cs' ih =>
    intro total processed hall
    have hc : c ≠ [] := hall c (List.mem_cons_self _ _)
    rw [classifyGo, if_neg (fun h => hc (List.length_eq_zero.mp h))]
    dsimp only
    rw [prepareBatchItems_eq env perm hperm, processChunk_spec]
    dsimp only
    rw [ih total (processed + c.length)
      (fun x hx => hall x (List.mem_cons_of_mem _ hx))]
    rw [List.map_cons, List.flatten_cons]

/-- The reported `done` values are strictly increasing, bounded by the total,
and terminate at the total. -/
theorem classifyGo_events_props (env : PipelineEnv)
    (perm : List (Nat × String) → List (Nat × String)) :
    ∀ (cs : List (List ImageRow)) (total processed : Nat),
    (∀ c ∈ cs, c ≠ []) →
    processed + (cs.map List.length).sum = total →
    ((classifyGo env perm cs total processed).2.1.Chain' (· < ·) ∧
     (cs ≠ [] →
       (classifyGo env perm cs total processed).2.1.getLast? = some total ∧
       total ∈ (classifyGo env perm cs total processed).2.1) ∧
     (∀ e ∈ (classifyGo env perm cs total processed).2.1,
       processed < e ∧ e ≤ total)) := by
  intro cs
  induction cs with
  | nil =>
    intro total processed _ _
    exact ⟨List.chain'_nil, fun h => absurd rfl h, by intro e he; cases he⟩
  | cons c cs' ih =>
    intro total processed hall hsum
    have hc : c ≠ [] := hall c (List.mem_cons_self _ _)
    have hclen : 0 < c.length := List.length_pos.mpr hc
    rw [List.map_cons, List.sum_cons] at hsum
    have hall' : ∀ x ∈ cs', x ≠ [] := fun x hx => hall x (List.mem_cons_of_mem _ hx)
    have hsum' : (processed + c.length) + (cs'.map List.length).sum = total := by
      omega
    have hple : processed + c.length ≤ total := by omega
    obtain ⟨ihc, ihl, ihb⟩ := ih total (processed + c.length) hall' hsum'
    rw [classifyGo, if_neg (fun h => hc (List.length_eq_zero.mp h))]
    dsimp only
    rw [Nat.min_eq_left hple]
    refine ⟨?_, ?_, ?_⟩
    · refine List.chain'_cons'.mpr ⟨?_, ihc⟩
      intro y hy
      exact (ihb y (List.mem_of_mem_head? hy)).1
    · intro _
      by_cases hcs' : cs' = []
      · subst hcs'
        have hz : (classifyGo env perm ([] : List (List ImageRow)) total
            (processed + c.length)).2.1 = [] := rfl
        rw [hz]
        have : processed + c.length = total := by
          simpa using hsum'
        rw [this]
        exact ⟨rfl, List.mem_singleton_self _⟩
      · obtain ⟨hlast, hmem⟩ := ihl hcs'
        have hrest_ne : (classifyGo env perm cs' total
            (processed + c.length)).2.1 ≠ [] := by
          intro h
          rw [h] at hlast
          cases hlast
        obtain ⟨b, l, hbl⟩ := List.exists_cons_of_ne_nil hrest_ne
        rw [hbl]
        rw [hbl] at hlast hmem
        exact ⟨by rw [List.getLast?_cons_cons]; exact hlast,
          List.mem_cons_of_mem _ hmem⟩
    · intro e he
      rcases List.mem_cons.mp he with rfl | he'
      · exact ⟨by omega, hple⟩
      · obtain ⟨h1, h2⟩ := ihb e he'
        exact ⟨by omega, h2⟩

/-- Indexed form of the reported `done` values: the `i`-th event is the
cumulative length of the first `i + 1` chunks. -/
theorem classifyGo_events_get? (env : PipelineEnv)
    (perm : List (Nat × String) → List (Nat × String)) :
    ∀ (cs : List (List ImageRow)) (total processed : Nat),
    (∀ c ∈ cs, c ≠ []) →
    processed + (cs.map List.length).sum = total →
    ∀ i, (classifyGo env perm cs total processed).2.1.get? i
      = if i < cs.length then
          some (processed + ((cs.take (i + 1)).map List.length).sum)
        else none := by
  intro cs
  induction cs with
  | nil =>
    intro total processed _ _ i
    rw [if_neg (by simp)]
    rfl
  | cons c cs' ih =>
    intro total processed hall hsum i
    have hc : c ≠ [] := hall c (List.mem_cons_self _ _)
    rw [List.map_cons, List.sum_cons] at hsum
    have hall' : ∀ x ∈ cs', x ≠ [] := fun x hx => hall x (List.mem_cons_of_mem _ hx)
    have hsum' : (processed + c.length) + (cs'.map List.length).sum = total := by
      omega
    have hple : processed + c.length ≤ total := by omega
    rw [classifyGo, if_neg (fun h => hc (List.length_eq_zero.mp h))]
    dsimp only
    rw [Nat.min_eq_left hple]
    cases i with
    | zero =>
      rw [List.get?_cons_zero, if_pos (by simp)]
      simp
    | succ i =>
      rw [List.get?_cons_succ, ih total (processed + c.length) hall' hsum' i]
      by_cases hi : i < cs'.length
      · rw [if_pos hi, if_pos (by simp; omega)]
        rw [List.take_succ_cons, List.map_cons, List.sum_cons]
        congr 1
        omega
      · rw [if_neg hi, if_neg (by simp; omega)]

/-- The per-batch forward-pass counts: one per chunk with any successfully
preprocessed image, zero otherwise. -/
theorem classifyGo_fwd (env : PipelineEnv)
    (perm : List (Nat × String) → List (Nat × String))
    (hperm : ∀ l, (perm l).Perm l) :
    ∀ (cs : List (List ImageRow)) (total processed : Nat),
    (∀ c ∈ cs, c ≠ []) →
    (classifyGo env perm cs total processed).2.2
      = cs.map (fun c =>
          if c.any (fun r => (env.prep r.file).isSome) then 1 else 0) := by
  intro cs
  induction cs with
  | nil => intro total processed _; rfl
  | cons c cs' ih =>
    intro total processed hall
    have hc : c ≠ [] := hall c (List.mem_cons_self _ _)
    rw [classifyGo, if_neg (fun h => hc (List.length_eq_zero.mp h))]
    dsimp only
    rw [prepareBatchItems_eq env perm hperm, processChunk_spec]
    dsimp only
    rw [ih total (processed + c.length)
      (fun x hx => hall x (List.mem_cons_of_mem _ hx))]
    rw [List.map_cons]

/-! ## Claim C3 — progress monotonicity -/

/-- Claim C3: for every scan of a non-empty row set, the `done` values
reported by the progress callback are monotonically non-decreasing (in fact
strictly increasing), end at exactly `N = rows.length`, and attain `N`
exactly once, as the terminal event — regardless of how many images fail
preprocessing (the `prep` oracle is arbitrary). -/
theorem C3_progress_monotonic (env : PipelineEnv)
    (perm : List (Nat × String) → List (Nat × String))
    (rows : List ImageRow) (batchSize : Nat) (hne : rows ≠ []) :
    ((classify env perm rows batchSize).2.1).Chain' (· ≤ ·) ∧
    ((classify env perm rows batchSize).2.1).getLast? = some rows.length ∧
    ((classify env perm rows batchSize).2.1).count rows.length = 1 := by
  have hlen0 : rows.length ≠ 0 := fun h => hne (List.length_eq_zero.mp h)
  rw [classify, if_neg hlen0]
  have hall : ∀ c ∈ chunksList (max batchSize 1) rows, c ≠ [] :=
    chunksList_ne_nil _ rows
  have hsum : 0 + ((chunksList (max batchSize 1) rows).map List.length).sum
      = rows.length := by
    rw [Nat.zero_add, ← List.length_flatten, chunksList_flatten]
  obtain ⟨hchain, hlast, hbound⟩ :=
    classifyGo_events_props env perm (chunksList (max batchSize 1) rows)
      rows.length 0 hall hsum
  obtain ⟨hl, hmem⟩ := hlast (chunksList_ne_nil_of_ne_nil _ rows hne)
  refine ⟨hchain.imp (fun {a b} h => le_of_lt h), hl, ?_⟩
  have hpair := List.chain'_iff_pairwise.mp hchain
  exact List.count_eq_one_of_mem (hpair.imp (fun h => Nat.ne_of_lt h)) hmem

/-- Witness for C3 at a concrete input: three rows in batches of two. -/
theorem C3_progress_monotonic_witness :
    ((classify ⟨fun _ => some [1], fun p => p, ["a"], [], 1⟩ (fun l => l)
        [⟨"x", false, none⟩, ⟨"y", false, none⟩, ⟨"z", false, none⟩]
        2).2.1).Chain' (· ≤ ·) ∧
    ((classify ⟨fun _ => some [1], fun p => p, ["a"], [], 1⟩ (fun l => l)
        [⟨"x", false, none⟩, ⟨"y", false, none⟩, ⟨"z", false, none⟩]
        2).2.1).getLast? = some ([(⟨"x", false, none⟩ : ImageRow),
          ⟨"y", false, none⟩, ⟨"z", false, none⟩]).length ∧
    ((classify ⟨fun _ => some [1], fun p => p, ["a"], [], 1⟩ (fun l => l)
        [⟨"x", false, none⟩, ⟨"y", false, none⟩, ⟨"z", false, none⟩]
        2).2.1).count ([(⟨"x", false, none⟩ : ImageRow),
          ⟨"y", false, none⟩, ⟨"z", false, none⟩]).length = 1 :=
  C3_progress_monotonic ⟨fun _ => some [1], fun p => p, ["a"], [], 1⟩
    (fun l => l) [⟨"x", false, none⟩, ⟨"y", false, none⟩, ⟨"z", false, none⟩]
    2 (by decide)

/-! ## Claim C7 — batch splitting is order-preserving -/

/-- Claim C7: classifying the rows with any batch size produces row-for-row
identical output to classifying them with any other batch size under the same
configuration — both equal the per-row map of the scan semantics — and the
output is invariant under the (arbitrary) parallel preprocessing completion
order, because per-image results are re-sorted back to their original
indices. -/
theorem C7_batch_split_invariance (env : PipelineEnv)
    (perm₁ perm₂ : List (Nat × String) → List (Nat × String))
    (h1 : ∀ l, (perm₁ l).Perm l) (h2 : ∀ l, (perm₂ l).Perm l)
    (rows : List ImageRow) (b₁ b₂ : Nat) :
    (classify env perm₁ rows b₁).1 = rows.map (perRow env) ∧
    (classify env perm₁ rows b₁).1 = (classify env perm₂ rows b₂).1 := by
  have key : ∀ (perm : List (Nat × String) → List (Nat × String)),
      (∀ l, (perm l).Perm l) → ∀ b : Nat,
      (classify env perm rows b).1 = rows.map (perRow env) := by
    intro perm hp b
    rw [classify]
    by_cases h : rows.length = 0
    · rw [if_pos h]
      rw [List.length_eq_zero.mp h]
      rfl
    · rw [if_neg h]
      rw [classifyGo_rows env perm hp _ _ _ (chunksList_ne_nil _ rows)]
      rw [← List.map_flatten, chunksList_flatten]
  exact ⟨key perm₁ h1 b₁, by rw [key perm₁ h1 b₁, key perm₂ h2 b₂]⟩

/-- Witness for C7 at a concrete input: batch sizes 1 and 2 and reversed
completion order agree. -/
theorem C7_batch_split_invariance_witness :
    (classify ⟨fun _ => some [1], fun p => p, ["a"], [], 1⟩ (fun l => l)
        [⟨"x", false, none⟩, ⟨"y", false, none⟩, ⟨"z", false, none⟩] 1).1
      = [(⟨"x", false, none⟩ : ImageRow), ⟨"y", false, none⟩,
          ⟨"z", false, none⟩].map
          (perRow ⟨fun _ => some [1], fun p => p, ["a"], [], 1⟩) ∧
    (classify ⟨fun _ => some [1], fun p => p, ["a"], [], 1⟩ (fun l => l)
        [⟨"x", false, none⟩, ⟨"y", false, none⟩, ⟨"z", false, none⟩] 1).1
      = (classify ⟨fun _ => some [1], fun p => p, ["a"], [], 1⟩
          (fun l => l.reverse)
          [⟨"x", false, none⟩, ⟨"y", false, none⟩, ⟨"z", false, none⟩] 2).1 :=
  C7_batch_split_invariance ⟨fun _ => some [1], fun p => p, ["a"], [], 1⟩
    (fun l => l) (fun l => l.reverse)
    (fun l => List.Perm.refl l) (fun l => List.reverse_perm l)
    [⟨"x", false, none⟩, ⟨"y", false, none⟩, ⟨"z", false, none⟩] 1 2

/-! ## Claim C8 — an all-failed batch -/

/-- Claim C8: a batch in which every image failed preprocessing (or tensor
construction) performs no model forward pass, marks all its rows
`present = false` with `classification = None`, and still advances the
progress counter by the batch's full length, without aborting the scan (the
surrounding batches are processed normally). -/
theorem C8_all_failed_batch (env : PipelineEnv)
    (perm : List (Nat × String) → List (Nat × String))
    (hperm : ∀ l, (perm l).Perm l) (rows : List ImageRow) (batchSize : Nat)
    (i : Nat) (c : List ImageRow)
    (hc : (chunksList (max batchSize 1) rows).get? i = some c)
    (hfail : ∀ r ∈ c, env.prep r.file = none) :
    (classify env perm rows batchSize).2.2.get? i = some 0 ∧
    (classify env perm rows batchSize).2.1.get? i
      = some ((((chunksList (max batchSize 1) rows).take (i + 1)).map
          List.length).sum) ∧
    (classify env perm rows batchSize).1
      = ((chunksList (max batchSize 1) rows).take i).flatten.map (perRow env)
        ++ c.map markAbsent
        ++ ((chunksList (max batchSize 1) rows).drop (i + 1)).flatten.map
            (perRow env) := by
  have hne : rows ≠ [] := by
    intro h
    subst h
    rw [chunksList] at hc
    cases hc
  have hlen0 : rows.length ≠ 0 := fun h => hne (List.length_eq_zero.mp h)
  have hall : ∀ x ∈ chunksList (max batchSize 1) rows, x ≠ [] :=
    chunksList_ne_nil _ rows
  have hsum : 0 + ((chunksList (max batchSize 1) rows).map List.length).sum
      = rows.length := by
    rw [Nat.zero_add, ← List.length_flatten, chunksList_flatten]
  obtain ⟨hi, hget⟩ := List.get?_eq_some.mp hc
  refine ⟨?_, ?_, ?_⟩
  · rw [classify, if_neg hlen0, classifyGo_fwd env perm hperm _ _ _ hall]
    rw [List.get?_map, hc, Option.map_some']
    have hanyf : c.any (fun r => (env.prep r.file).isSome) = false := by
      rw [List.any_eq_false]
      intro r hr
      rw [hfail r hr]
      simp
    rw [hanyf]
    simp
  · rw [classify, if_neg hlen0,
      classifyGo_events_get? env perm _ _ _ hall hsum i, if_pos hi,
      Nat.zero_add]
  · rw [classify, if_neg hlen0,
      classifyGo_rows env perm hperm _ _ _ hall]
    have hdrop : (chunksList (max batchSize 1) rows).drop i
        = c :: (chunksList (max batchSize 1) rows).drop (i + 1) := by
      rw [List.drop_eq_getElem_cons hi]
      congr 1
    have hsplit : chunksList (max batchSize 1) rows
        = (chunksList (max batchSize 1) rows).take i
          ++ c :: (chunksList (max batchSize 1) rows).drop (i + 1) := by
      conv_lhs => rw [← List.take_append_drop i (chunksList (max batchSize 1) rows)]
      rw [hdrop]
    have hcmap : c.map (perRow env) = c.map markAbsent := by
      apply List.map_congr_left
      intro r hr
      rw [perRow, hfail r hr]
    conv_lhs => rw [hsplit]
    rw [List.map_append, List.flatten_append, List.map_cons, List.flatten_cons,
      ← List.map_flatten, ← List.map_flatten, hcmap, List.append_assoc]

/-- Witness for C8 at a concrete input: both images of the only batch fail
preprocessing. -/
theorem C8_all_failed_batch_witness :
    (classify ⟨fun _ => none, fun p => p, ["a"], [], 1⟩ (fun l => l)
        [⟨"x", true, none⟩, ⟨"y", true, none⟩] 2).2.2.get? 0 = some 0 ∧
    (classify ⟨fun _ => none, fun p => p, ["a"], [], 1⟩ (fun l => l)
        [⟨"x", true, none⟩, ⟨"y", true, none⟩] 2).2.1.get? 0
      = some ((((chunksList (max 2 1)
          [(⟨"x", true, none⟩ : ImageRow), ⟨"y", true, none⟩]).take
            (0 + 1)).map List.length).sum) ∧
    (classify ⟨fun _ => none, fun p => p, ["a"], [], 1⟩ (fun l => l)
        [⟨"x", true, none⟩, ⟨"y", true, none⟩] 2).1
      = ((chunksList (max 2 1)
            [(⟨"x", true, none⟩ : ImageRow), ⟨"y", true, none⟩]).take
              0).flatten.map (perRow ⟨fun _ => none, fun p => p, ["a"], [], 1⟩)
        ++ [(⟨"x", true, none⟩ : ImageRow), ⟨"y", true, none⟩].map markAbsent
        ++ ((chunksList (max 2 1)
            [(⟨"x", true, none⟩ : ImageRow), ⟨"y", true, none⟩]).drop
              (0 + 1)).flatten.map
              (perRow ⟨fun _ => none, fun p => p, ["a"], [], 1⟩) :=
  C8_all_failed_batch ⟨fun _ => none, fun p => p, ["a"], [], 1⟩ (fun l => l)
    (fun l => List.Perm.refl l) [⟨"x", true, none⟩, ⟨"y", true, none⟩] 2 0
    [⟨"x", true, none⟩, ⟨"y", true, none⟩]
    (by simp [chunksList]) (by intro r hr; rfl)

/-! ## Claim C10 — zero batch size is clamped -/

/-- Claim C10: classification with `batch_size = 0` behaves exactly as with
`batch_size = 1` (the size is clamped with `max(1)` both at construction and
at call time), every chunk of the clamped partition is non-empty, and
classification is a total function (it cannot fail on account of a zero
batch size). -/
theorem C10_zero_batch_size (env : PipelineEnv)
    (perm : List (Nat × String) → List (Nat × String))
    (rows : List ImageRow) :
    classify env perm rows 0 = classify env perm rows 1 ∧
    newClassifierBatchSize 0 = 1 ∧
    (∀ b : Nat, 1 ≤ newClassifierBatchSize b) ∧
    (∀ b : Nat, ∀ c ∈ chunksList (max b 1) rows, c ≠ []) := by
  refine ⟨rfl, rfl, fun b => Nat.le_max_right b 1,
    fun b => chunksList_ne_nil _ rows⟩

/-- Witness for C10 at a concrete input: the single chunk of the clamped
zero-size partition is non-empty. -/
theorem C10_zero_batch_size_witness :
    classify ⟨fun _ => some [1], fun p => p, ["a"], [], 1⟩ (fun l => l)
        [(⟨"x", false, none⟩ : ImageRow)] 0
      = classify ⟨fun _ => some [1], fun p => p, ["a"], [], 1⟩ (fun l => l)
        [(⟨"x", false, none⟩ : ImageRow)] 1 ∧
    [(⟨"x", false, none⟩ : ImageRow)] ≠ [] :=
  ⟨(C10_zero_batch_size ⟨fun _ => some [1], fun p => p, ["a"], [], 1⟩
      (fun l => l) [⟨"x", false, none⟩]).1,
   (C10_zero_batch_size ⟨fun _ => some [1], fun p => p, ["a"], [], 1⟩
      (fun l => l) [⟨"x", false, none⟩]).2.2.2 0
      [⟨"x", false, none⟩] (by simp [chunksList])⟩

end Feedie
